import Mathlib

/-!
Shallow embedding of two components of the linera-protocol repository:

* `src/linera-chain/src/certificate/lite.rs` — the `LiteCertificate` data
  model and its operations (`new`, `try_from_votes`, `check_value`,
  `with_value`).
* `src/linera-views/src/hash.rs` — the `HashView` canonical-hash
  implementations for the container views (register, log, queue, map,
  collection).

Representation choices: validator public keys, signatures, content hashes,
chain ids, kinds and rounds are opaque, totally ordered, comparable values
in the source; we model each as `Nat`.  The streaming hasher of `hash.rs`
is modelled by the exact byte stream fed to it (`List Nat`); `finalize` is
a pure function of that stream, so two invocations produce equal digests
exactly when the streams are equal.  Canonical (BCS) encoders are abstract
total parameters.
-/

namespace LineraProof

/-- `ValidatorPublicKey` (linera-base): an ordered, comparable key. -/
abbrev ValidatorPublicKey := Nat

/-- `ValidatorSignature` (linera-base). -/
abbrev ValidatorSignature := Nat

/-- `Round` (linera-base `data_types`): totally ordered round identifier. -/
abbrev Round := Nat

/-- A content hash (`CryptoHash`). -/
abbrev CryptoHash := Nat

/-- A chain identifier. -/
abbrev ChainId := Nat

/-- The certificate-kind discriminant. -/
abbrev CertKind := Nat

/-- `LiteValue` (linera-chain `data_types`): hash, chain id and kind of a
certified value. -/
structure LiteValue where
  value_hash : CryptoHash
  chain_id : ChainId
  kind : CertKind
deriving Repr, DecidableEq

/-- `LiteVote` (linera-chain `data_types`): one validator's signed vote. -/
structure LiteVote where
  value : LiteValue
  round : Round
  public_key : ValidatorPublicKey
  signature : ValidatorSignature
deriving Repr, DecidableEq

/-- `LiteCertificate` (lite.rs): value descriptor, round, signature list.
The `Cow` borrowed/owned distinction does not change any computed value, so
signatures are a plain list. -/
structure LiteCertificate where
  value : LiteValue
  round : Round
  signatures : List (ValidatorPublicKey × ValidatorSignature)
deriving Repr, DecidableEq

/-- The comparison used by `signatures.sort_by_key(|&(validator_name, _)|
validator_name)`: ascending by public key. -/
def sigLe (a b : ValidatorPublicKey × ValidatorSignature) : Bool :=
  a.1 ≤ b.1

/-- `LiteCertificate::new` (lite.rs lines 33–46): stable-sorts the signature
list ascending by public key (Rust `sort_by_key` and `List.mergeSort` are
both stable sorts and hence compute the same list). -/
def LiteCertificate.new (value : LiteValue) (round : Round)
    (signatures : List (ValidatorPublicKey × ValidatorSignature)) :
    LiteCertificate :=
  { value := value, round := round, signatures := signatures.mergeSort sigLe }

/-- The `for vote in votes` loop of `try_from_votes` (lite.rs lines 59–64):
checks each remaining vote against the reference `value_hash` and `round`,
returning `none` on the first mismatch, else pushing the vote's
`(public_key, signature)` pair. -/
def tryFromVotesLoop (value : LiteValue) (round : Round)
    (signatures : List (ValidatorPublicKey × ValidatorSignature)) :
    List LiteVote → Option (List (ValidatorPublicKey × ValidatorSignature))
  | [] => some signatures
  | vote :: rest =>
    if vote.value.value_hash ≠ value.value_hash ∨ vote.round ≠ round then
      none
    else
      tryFromVotesLoop value round
        (signatures ++ [(vote.public_key, vote.signature)]) rest

/-- `LiteCertificate::try_from_votes` (lite.rs lines 50–66): `votes.next()?`
takes the first vote as the reference; the loop collects the remaining
signature pairs; on success the result goes through `LiteCertificate::new`. -/
def LiteCertificate.try_from_votes : List LiteVote → Option LiteCertificate
  | [] => none
  | v :: votes =>
    (tryFromVotesLoop v.value v.round [(v.public_key, v.signature)] votes).map
      fun signatures => LiteCertificate.new v.value v.round signatures

/-- A payload type implementing `CertificateValue`: it exposes `chain_id()`,
`hash()` and the type-level constant `KIND` (modelled as a field since all
values of a given payload type share it). -/
structure Payload where
  chain_id : ChainId
  kind : CertKind
  hash : CryptoHash
deriving Repr, DecidableEq

/-- Modelled from the spec: `GenericCertificate` (linera-chain, not under
`src/`) is "a LiteCertificate plus the actual payload";
`GenericCertificate::new` packs the payload, the round and the signature
list. -/
structure GenericCertificate where
  value : Payload
  round : Round
  signatures : List (ValidatorPublicKey × ValidatorSignature)
deriving Repr, DecidableEq

/-- Modelled from the spec: the constructor used by `with_value`. -/
def GenericCertificate.new (value : Payload) (round : Round)
    (signatures : List (ValidatorPublicKey × ValidatorSignature)) :
    GenericCertificate :=
  { value := value, round := round, signatures := signatures }

/-- `LiteCertificate::check_value` (lite.rs lines 81–85). -/
def LiteCertificate.check_value (c : LiteCertificate) (value : Payload) :
    Bool :=
  c.value.chain_id == value.chain_id && value.kind == c.value.kind
    && c.value.value_hash == value.hash

/-- `LiteCertificate::with_value` (lite.rs lines 88–100). -/
def LiteCertificate.with_value (c : LiteCertificate) (value : Payload) :
    Option GenericCertificate :=
  if c.value.chain_id ≠ value.chain_id ∨ value.kind ≠ c.value.kind
      ∨ c.value.value_hash ≠ value.hash then
    none
  else
    some (GenericCertificate.new value c.round c.signatures)

/-! ### Helper lemmas about the aggregation loop -/

/-- The loop reports "no certificate" exactly when some remaining vote
differs from the reference in `value_hash` or `round`. -/
theorem tryFromVotesLoop_eq_none_iff (value : LiteValue) (round : Round)
    (acc : List (ValidatorPublicKey × ValidatorSignature))
    (votes : List LiteVote) :
    tryFromVotesLoop value round acc votes = none ↔
      ∃ v ∈ votes,
        v.value.value_hash ≠ value.value_hash ∨ v.round ≠ round := by
  induction votes generalizing acc with
  | nil => simp [tryFromVotesLoop]
  | cons vote rest ih =>
    by_cases h : vote.value.value_hash ≠ value.value_hash ∨ vote.round ≠ round
    · rw [tryFromVotesLoop, if_pos h]
      exact iff_of_true rfl ⟨vote, List.mem_cons_self _ _, h⟩
    · rw [tryFromVotesLoop, if_neg h, ih]
      simp only [List.mem_cons]
      constructor
      · rintro ⟨v, hv, hd⟩
        exact ⟨v, Or.inr hv, hd⟩
      · rintro ⟨v, hv | hv, hd⟩
        · exact absurd (hv ▸ hd) h
        · exact ⟨v, hv, hd⟩

/-- On success, the loop returns the accumulator followed by the remaining
votes' `(public_key, signature)` pairs in arrival order. -/
theorem tryFromVotesLoop_eq_some (value : LiteValue) (round : Round)
    (acc s : List (ValidatorPublicKey × ValidatorSignature))
    (votes : List LiteVote)
    (h : tryFromVotesLoop value round acc votes = some s) :
    s = acc ++ votes.map fun v => (v.public_key, v.signature) := by
  induction votes generalizing acc with
  | nil =>
    simp only [tryFromVotesLoop, Option.some.injEq] at h
    simp [h]
  | cons vote rest ih =>
    by_cases hd : vote.value.value_hash ≠ value.value_hash ∨ vote.round ≠ round
    · simp [tryFromVotesLoop, if_pos hd] at h
    · have := ih _ (by simpa [tryFromVotesLoop, if_neg hd] using h)
      simp [this]

/-- If every remaining vote matches the reference, the loop succeeds. -/
theorem tryFromVotesLoop_matching (value : LiteValue) (round : Round)
    (acc : List (ValidatorPublicKey × ValidatorSignature))
    (votes : List LiteVote)
    (h : ∀ v ∈ votes,
      v.value.value_hash = value.value_hash ∧ v.round = round) :
    tryFromVotesLoop value round acc votes =
      some (acc ++ votes.map fun v => (v.public_key, v.signature)) := by
  induction votes generalizing acc with
  | nil => simp [tryFromVotesLoop]
  | cons vote rest ih =>
    have hv := h vote (List.mem_cons_self _ _)
    have hcond : ¬(vote.value.value_hash ≠ value.value_hash ∨
        vote.round ≠ round) := by
      push_neg
      exact hv
    rw [tryFromVotesLoop, if_neg hcond,
      ih _ fun v hv => h v (List.mem_cons_of_mem _ hv)]
    simp

/-- `sigLe` is transitive. -/
theorem sigLe_trans (a b c : ValidatorPublicKey × ValidatorSignature)
    (h1 : sigLe a b) (h2 : sigLe b c) : sigLe a c := by
  simp only [sigLe, decide_eq_true_eq] at h1 h2 ⊢
  exact le_trans h1 h2

/-- `sigLe` is total. -/
theorem sigLe_total (a b : ValidatorPublicKey × ValidatorSignature) :
    sigLe a b || sigLe b a := by
  simp only [sigLe, Bool.or_eq_true, decide_eq_true_eq]
  exact Nat.le_total a.1 b.1

/-- The signature list produced by `new` is sorted ascending by public key. -/
theorem new_signatures_sorted (value : LiteValue) (round : Round)
    (signatures : List (ValidatorPublicKey × ValidatorSignature)) :
    (LiteCertificate.new value round signatures).signatures.Sorted
      (fun a b => a.1 ≤ b.1) := by
  have h := List.sorted_mergeSort sigLe_trans sigLe_total signatures
  refine h.imp fun hab => ?_
  simpa [sigLe] using hab

/-- The signature list produced by `new` is a permutation of the input. -/
theorem new_signatures_perm (value : LiteValue) (round : Round)
    (signatures : List (ValidatorPublicKey × ValidatorSignature)) :
    (LiteCertificate.new value round signatures).signatures.Perm
      signatures :=
  List.mergeSort_perm signatures sigLe

/-! ### Claims C1, C2, C3, C7, C9, C10 -/

/-- C1: For every `LiteValue`, round, and signature list with
pairwise-distinct public keys, and for any two lists that are permutations
of each other, `LiteCertificate::new` produces equal certificates (hence
byte-identical under the deterministic canonical serialization); its output
signature sequence is sorted ascending by public key. -/
theorem claim_C1 (v : LiteValue) (r : Round)
    (s1 s2 : List (ValidatorPublicKey × ValidatorSignature))
    (hd : s1.Pairwise (fun a b => a.1 ≠ b.1))
    (hp : s1.Perm s2) :
    LiteCertificate.new v r s1 = LiteCertificate.new v r s2 ∧
    (LiteCertificate.new v r s1).signatures.Sorted
      (fun a b => a.1 ≤ b.1) := by
  refine ⟨?_, new_signatures_sorted v r s1⟩
  have hperm : (s1.mergeSort sigLe).Perm (s2.mergeSort sigLe) :=
    ((List.mergeSort_perm s1 sigLe).trans hp).trans
      (List.mergeSort_perm s2 sigLe).symm
  have hd1 : (s1.mergeSort sigLe).Pairwise fun a b => a.1 ≠ b.1 :=
    ((List.mergeSort_perm s1 sigLe).pairwise_iff
      (fun {_ _} h => Ne.symm h)).mpr hd
  have hd2 : (s2.mergeSort sigLe).Pairwise fun a b => a.1 ≠ b.1 :=
    (hperm.pairwise_iff (fun {_ _} h => Ne.symm h)).mp hd1
  have hs1 : (s1.mergeSort sigLe).Pairwise fun a b => a.1 < b.1 :=
    ((new_signatures_sorted v r s1).and hd1).imp
      fun hab => lt_of_le_of_ne hab.1 hab.2
  have hs2 : (s2.mergeSort sigLe).Pairwise fun a b => a.1 < b.1 :=
    ((new_signatures_sorted v r s2).and hd2).imp
      fun hab => lt_of_le_of_ne hab.1 hab.2
  haveI : IsAntisymm (ValidatorPublicKey × ValidatorSignature)
      fun a b => a.1 < b.1 :=
    ⟨fun a b h1 h2 => absurd (h1.trans h2) (lt_irrefl _)⟩
  have : s1.mergeSort sigLe = s2.mergeSort sigLe :=
    List.eq_of_perm_of_sorted hperm hs1 hs2
  simp [LiteCertificate.new, this]

/-- C1 witness at concrete inputs. -/
theorem claim_C1_witness :
    LiteCertificate.new ⟨5, 6, 7⟩ 1 [(2, 20), (1, 10), (3, 30)] =
      LiteCertificate.new ⟨5, 6, 7⟩ 1 [(3, 30), (2, 20), (1, 10)] ∧
    (LiteCertificate.new ⟨5, 6, 7⟩ 1
      [(2, 20), (1, 10), (3, 30)]).signatures.Sorted
        (fun a b => a.1 ≤ b.1) :=
  claim_C1 ⟨5, 6, 7⟩ 1 [(2, 20), (1, 10), (3, 30)]
    [(3, 30), (2, 20), (1, 10)] (by decide) (by decide)

/-- Unfolding equation for `try_from_votes` on a non-empty vote list. -/
theorem try_from_votes_cons (v0 : LiteVote) (rest : List LiteVote) :
    LiteCertificate.try_from_votes (v0 :: rest) =
      (tryFromVotesLoop v0.value v0.round
        [(v0.public_key, v0.signature)] rest).map
        fun signatures => LiteCertificate.new v0.value v0.round signatures :=
  rfl

/-- C2: `try_from_votes` returns `none` exactly when the input is empty or
some vote after the first differs from the first vote in `value_hash` or in
`round`; in particular it never produces a certificate from a matching
subset of the votes. -/
theorem claim_C2 (votes : List LiteVote) :
    LiteCertificate.try_from_votes votes = none ↔
      votes = [] ∨ ∃ v0 rest, votes = v0 :: rest ∧
        ∃ v ∈ rest,
          v.value.value_hash ≠ v0.value.value_hash ∨ v.round ≠ v0.round := by
  cases votes with
  | nil => simp [LiteCertificate.try_from_votes]
  | cons v0 rest =>
    rw [try_from_votes_cons, Option.map_eq_none',
      tryFromVotesLoop_eq_none_iff]
    constructor
    · rintro ⟨v, hv, hd⟩
      exact Or.inr ⟨v0, rest, rfl, v, hv, hd⟩
    · rintro (h | ⟨w0, wrest, heq, v, hv, hd⟩)
      · exact absurd h (List.cons_ne_nil _ _)
      · injection heq with h1 h2
        subst h1
        subst h2
        exact ⟨v, hv, hd⟩

/-- On success, the certificate's signature list is the arrival-order pair
list of the votes, stably sorted ascending by public key (the sort being
applied by `LiteCertificate::new` on the collected pairs). -/
theorem try_from_votes_signatures (votes : List LiteVote)
    (c : LiteCertificate)
    (h : LiteCertificate.try_from_votes votes = some c) :
    c.signatures =
      (votes.map fun v => (v.public_key, v.signature)).mergeSort sigLe := by
  cases votes with
  | nil => exact absurd h (by simp [LiteCertificate.try_from_votes])
  | cons v0 rest =>
    rw [try_from_votes_cons, Option.map_eq_some'] at h
    obtain ⟨s, hs, hc⟩ := h
    have := tryFromVotesLoop_eq_some _ _ _ _ _ hs
    subst hc
    simp [LiteCertificate.new, this]

unseal List.merge List.mergeSort in
/-- C3 counterexample: two matching votes arriving with public keys 2 then 1
produce a certificate whose signature sequence is NOT in arrival order (it
has been sorted by public key). -/
theorem claim_C3_counterexample :
    (LiteCertificate.try_from_votes
        [⟨⟨5, 6, 7⟩, 1, 2, 20⟩, ⟨⟨5, 6, 7⟩, 1, 1, 10⟩]).map
      LiteCertificate.signatures ≠
    some (([⟨⟨5, 6, 7⟩, 1, 2, 20⟩, ⟨⟨5, 6, 7⟩, 1, 1, 10⟩] :
        List LiteVote).map
      fun v => (v.public_key, v.signature)) := by
  decide

/-- C3 (amended): for every vote sequence on which `try_from_votes`
succeeds, the resulting certificate's signature sequence is the arrival-order
list of `(public_key, signature)` pairs stably sorted ascending by public
key. -/
theorem claim_C3 (votes : List LiteVote) (c : LiteCertificate)
    (h : LiteCertificate.try_from_votes votes = some c) :
    c.signatures =
      (votes.map fun v => (v.public_key, v.signature)).mergeSort sigLe :=
  try_from_votes_signatures votes c h

unseal List.merge List.mergeSort in
/-- C3 witness at concrete inputs. -/
theorem claim_C3_witness :
    (⟨⟨5, 6, 7⟩, 1, [(1, 10), (2, 20)]⟩ : LiteCertificate).signatures =
      (([⟨⟨5, 6, 7⟩, 1, 2, 20⟩, ⟨⟨5, 6, 7⟩, 1, 1, 10⟩] :
          List LiteVote).map
        fun v => (v.public_key, v.signature)).mergeSort sigLe :=
  claim_C3 [⟨⟨5, 6, 7⟩, 1, 2, 20⟩, ⟨⟨5, 6, 7⟩, 1, 1, 10⟩]
    ⟨⟨5, 6, 7⟩, 1, [(1, 10), (2, 20)]⟩ (by decide)

/-- C7: `check_value` returns `true` exactly when the payload's chain id,
kind and content hash equal the certificate descriptor's `chain_id`, `kind`
and `value_hash`; and `with_value` returns the `GenericCertificate` carrying
the payload, the certificate's round and its signatures exactly under the
same condition, returning `none` otherwise. -/
theorem claim_C7 (c : LiteCertificate) (p : Payload) :
    (c.check_value p = true ↔
      (c.value.chain_id = p.chain_id ∧ p.kind = c.value.kind ∧
        c.value.value_hash = p.hash)) ∧
    (c.with_value p =
      if c.value.chain_id = p.chain_id ∧ p.kind = c.value.kind ∧
          c.value.value_hash = p.hash
        then some (GenericCertificate.new p c.round c.signatures)
        else none) := by
  constructor
  · simp [LiteCertificate.check_value, Bool.and_eq_true, beq_iff_eq,
      and_assoc]
  · by_cases h : c.value.chain_id = p.chain_id ∧ p.kind = c.value.kind ∧
        c.value.value_hash = p.hash
    · rw [LiteCertificate.with_value,
        if_neg (by simp [h.1, h.2.1, h.2.2]), if_pos h]
    · rw [LiteCertificate.with_value, if_pos (by tauto), if_neg h]

/-- C9: `try_from_votes` never compares the `chain_id` or `kind` of later
votes against the first vote's: whenever all later votes share the first
vote's `value_hash` and `round` (their `chain_id` and `kind` being
arbitrary, in particular possibly different), it returns a certificate, and
that certificate carries the first vote's full descriptor. -/
theorem claim_C9 (v0 : LiteVote) (rest : List LiteVote)
    (h : ∀ v ∈ rest,
      v.value.value_hash = v0.value.value_hash ∧ v.round = v0.round) :
    ∃ c, LiteCertificate.try_from_votes (v0 :: rest) = some c ∧
      c.value = v0.value ∧ c.value.chain_id = v0.value.chain_id ∧
      c.value.kind = v0.value.kind ∧ c.round = v0.round := by
  refine ⟨LiteCertificate.new v0.value v0.round
    ([(v0.public_key, v0.signature)] ++
      rest.map fun v => (v.public_key, v.signature)),
    ?_, rfl, rfl, rfl, rfl⟩
  rw [try_from_votes_cons, tryFromVotesLoop_matching _ _ _ _ h]
  rfl

/-- C9 witness: the second vote differs from the first in both `chain_id`
and `kind` but shares its `value_hash` and `round`. -/
theorem claim_C9_witness :
    ∃ c, LiteCertificate.try_from_votes
        [⟨⟨5, 6, 7⟩, 1, 1, 10⟩, ⟨⟨5, 99, 42⟩, 1, 2, 20⟩] = some c ∧
      c.value = ⟨5, 6, 7⟩ ∧ c.value.chain_id = 6 ∧
      c.value.kind = 7 ∧ c.round = 1 :=
  claim_C9 ⟨⟨5, 6, 7⟩, 1, 1, 10⟩ [⟨⟨5, 99, 42⟩, 1, 2, 20⟩] (by decide)

/-- C10: neither `new` nor `try_from_votes` drops or deduplicates signature
pairs: the output signature sequence is a permutation of the input pairs
(for `try_from_votes`, of the pairs of all input votes), so a public key
appearing in several votes appears the same number of times in the
certificate. -/
theorem claim_C10 :
    (∀ (v : LiteValue) (r : Round)
        (sigs : List (ValidatorPublicKey × ValidatorSignature)),
      (LiteCertificate.new v r sigs).signatures.Perm sigs) ∧
    (∀ (votes : List LiteVote) (c : LiteCertificate),
      LiteCertificate.try_from_votes votes = some c →
        c.signatures.Perm (votes.map fun v => (v.public_key, v.signature))) ∧
    (∀ (votes : List LiteVote) (c : LiteCertificate)
        (p : ValidatorPublicKey × ValidatorSignature),
      LiteCertificate.try_from_votes votes = some c →
        c.signatures.countP (fun q => q == p) =
          (votes.map fun v => (v.public_key, v.signature)).countP
            (fun q => q == p)) := by
  have hperm : ∀ (votes : List LiteVote) (c : LiteCertificate),
      LiteCertificate.try_from_votes votes = some c →
        c.signatures.Perm
          (votes.map fun v => (v.public_key, v.signature)) := by
    intro votes c h
    rw [try_from_votes_signatures votes c h]
    exact List.mergeSort_perm _ _
  exact ⟨fun v r sigs => new_signatures_perm v r sigs, hperm,
    fun votes c p h => (hperm votes c h).countP_eq _⟩

unseal List.merge List.mergeSort in
/-- C10 witness: public key 2 contributes two votes and appears twice in the
certificate. -/
theorem claim_C10_witness :
    (LiteCertificate.new ⟨5, 6, 7⟩ 1 [(2, 20), (2, 21)]).signatures.Perm
      [(2, 20), (2, 21)] ∧
    (⟨⟨5, 6, 7⟩, 1, [(2, 20), (2, 21)]⟩ : LiteCertificate).signatures.Perm
      (([⟨⟨5, 6, 7⟩, 1, 2, 20⟩, ⟨⟨5, 6, 7⟩, 1, 2, 21⟩] :
          List LiteVote).map
        fun v => (v.public_key, v.signature)) ∧
    (⟨⟨5, 6, 7⟩, 1, [(2, 20), (2, 21)]⟩ :
        LiteCertificate).signatures.countP (fun q => q == (2, 20)) =
      (([⟨⟨5, 6, 7⟩, 1, 2, 20⟩, ⟨⟨5, 6, 7⟩, 1, 2, 21⟩] :
          List LiteVote).map
        fun v => (v.public_key, v.signature)).countP
          (fun q => q == (2, 20)) :=
  ⟨claim_C10.1 ⟨5, 6, 7⟩ 1 [(2, 20), (2, 21)],
    claim_C10.2.1 [⟨⟨5, 6, 7⟩, 1, 2, 20⟩, ⟨⟨5, 6, 7⟩, 1, 2, 21⟩]
      ⟨⟨5, 6, 7⟩, 1, [(2, 20), (2, 21)]⟩ (by decide),
    claim_C10.2.2 [⟨⟨5, 6, 7⟩, 1, 2, 20⟩, ⟨⟨5, 6, 7⟩, 1, 2, 21⟩]
      ⟨⟨5, 6, 7⟩, 1, [(2, 20), (2, 21)]⟩ (2, 20) (by decide)⟩

/-!
### Canonical hashing of views (`src/linera-views/src/hash.rs`)

The streaming `Hasher` is modelled by the byte stream written to it: each
`bcs::serialize_into(&mut hasher, x)` appends the canonical encoding of `x`
and `hasher.write_all(b)` appends `b` as-is; `finalize` is a pure function
of the total stream, so digests are equal exactly when the streams are.
Encoders (`encLen` for the `usize` element count, `encI` for indices,
`encV` for values, `encVList` for whole `Vec`s of values) are abstract
total parameters.
-/

/-- Outcome of a `hash` call on a `MapView`: `ok` carries the stream fed to
the hasher (the digest's preimage), `err` is a propagated storage error
(`?` on a store read), `panic` is the `expect` on a missing value. -/
inductive HashOutcome where
  | ok : List Nat → HashOutcome
  | err : HashOutcome
  | panic : HashOutcome
deriving Repr, DecidableEq

/-- A `MapView` together with the `MapOperations` store context it reads:
`indices()` enumerates the keys and `get` looks one key up; either store
operation may fail (modelled by `Except Unit`). -/
structure MapViewM (I V : Type) where
  indices : Except Unit (List I)
  get : I → Except Unit (Option V)

/-- The `for index in indices` loop of the `MapView` `hash` impl (hash.rs
lines 98–105): look the index up (`?` propagates a store error, `expect`
panics on a missing value), then serialize the index and the value into the
hasher. -/
def mapHashLoop (encI : I → List Nat) (encV : V → List Nat)
    (m : MapViewM I V) : List Nat → List I → HashOutcome
  | acc, [] => .ok acc
  | acc, i :: rest =>
    match m.get i with
    | .error _ => .err
    | .ok none => .panic
    | .ok (some v) => mapHashLoop encI encV m (acc ++ encI i ++ encV v) rest

/-- The `MapView` `hash` impl (hash.rs lines 94–107): fresh hasher,
enumerate the indices, serialize the element count, then run the loop. -/
def MapViewM.hash (encLen : Nat → List Nat) (encI : I → List Nat)
    (encV : V → List Nat) (m : MapViewM I V) : HashOutcome :=
  match m.indices with
  | .error _ => .err
  | .ok idxs => mapHashLoop encI encV m (encLen idxs.length) idxs

/-- Specification formula for the map digest: the element count followed by
each `(key, value)` pair canonically encoded, in list order. -/
def mapHashBytes (encLen : Nat → List Nat) (encI : I → List Nat)
    (encV : V → List Nat) (pairs : List (I × V)) : List Nat :=
  encLen pairs.length ++ (pairs.map fun p => encI p.1 ++ encV p.2).flatten

/-- A hashable view tree with materialized (successfully read) content:
the five container kinds of hash.rs, with `CollectionView` children being
arbitrary further view trees, materialized as an association list from
index to child. -/
inductive TreeView (I V : Type) where
  | reg : V → TreeView I V
  | log : List V → TreeView I V
  | queue : List V → TreeView I V
  | mapv : List (I × V) → TreeView I V
  | coll : List (I × TreeView I V) → TreeView I V

/-- The map loop of hash.rs on fully materialized pairs: serialize each
index then its value, in enumeration order. -/
def mapPairsBytes (encI : I → List Nat) (encV : V → List Nat) :
    List (I × V) → List Nat
  | [] => []
  | (i, v) :: rest => encI i ++ encV v ++ mapPairsBytes encI encV rest

mutual

/-- The `hash` computation of hash.rs per container kind, on a store whose
reads succeed:

* `RegisterView` (lines 50–54): serialize the one stored value;
* `AppendOnlyLogView` (lines 63–69): read `0..count` and serialize the
  whole element `Vec`;
* `QueueView` (lines 78–84): `read_front(count)` and serialize the whole
  element `Vec`;
* `MapView` (lines 94–107): serialize the element count, then each index
  and its value in enumeration order;
* `CollectionView` (lines 117–127): serialize the element count, then for
  each index in enumeration order serialize the index, load the child and
  write the raw bytes of the child's own finalized digest (`write_all`,
  not re-encoded). -/
def TreeView.hash (encLen : Nat → List Nat) (encI : I → List Nat)
    (encV : V → List Nat) (encVList : List V → List Nat) :
    TreeView I V → List Nat
  | .reg v => encV v
  | .log vs => encVList vs
  | .queue vs => encVList vs
  | .mapv ps => encLen ps.length ++ mapPairsBytes encI encV ps
  | .coll cs => encLen cs.length ++ collBytes encLen encI encV encVList cs

/-- The `for index in indices` loop of the `CollectionView` `hash` impl:
serialize the index, then append the child's finalized digest raw. -/
def collBytes (encLen : Nat → List Nat) (encI : I → List Nat)
    (encV : V → List Nat) (encVList : List V → List Nat) :
    List (I × TreeView I V) → List Nat
  | [] => []
  | (i, w) :: rest =>
    encI i ++ TreeView.hash encLen encI encV encVList w ++
      collBytes encLen encI encV encVList rest

end

/-! ### Helper lemmas about the map hash loop -/

/-- If every index in the list has a present value, the loop appends each
index's encoding followed by its value's encoding, in list order. -/
theorem mapHashLoop_ok {I V : Type} (encI : I → List Nat)
    (encV : V → List Nat) (m : MapViewM I V) (val : I → V)
    (idxs : List I) (acc : List Nat)
    (hget : ∀ i ∈ idxs, m.get i = .ok (some (val i))) :
    mapHashLoop encI encV m acc idxs =
      .ok (acc ++ (idxs.map fun i => encI i ++ encV (val i)).flatten) := by
  induction idxs generalizing acc with
  | nil => simp [mapHashLoop]
  | cons i rest ih =>
    simp only [mapHashLoop, hget i (List.mem_cons_self _ _)]
    rw [ih _ fun j hj => hget j (List.mem_cons_of_mem _ hj)]
    simp

/-- The loop panics exactly when the index list splits as `pre ++ i :: post`
with every index of `pre` present and `i` reported by enumeration but
missing on lookup. -/
theorem mapHashLoop_panic_iff {I V : Type} (encI : I → List Nat)
    (encV : V → List Nat) (m : MapViewM I V)
    (idxs : List I) (acc : List Nat) :
    mapHashLoop encI encV m acc idxs = .panic ↔
      ∃ pre i post, idxs = pre ++ i :: post ∧
        (∀ j ∈ pre, ∃ v, m.get j = .ok (some v)) ∧
        m.get i = .ok none := by
  induction idxs generalizing acc with
  | nil =>
    simp only [mapHashLoop]
    constructor
    · intro h
      exact absurd h (by simp)
    · rintro ⟨pre, i, post, heq, -, -⟩
      exact absurd heq.symm (List.append_ne_nil_of_right_ne_nil _
        (List.cons_ne_nil _ _))
  | cons i0 rest ih =>
    cases hg : m.get i0 with
    | error e =>
      simp only [mapHashLoop, hg]
      constructor
      · intro h
        exact absurd h (by simp)
      · rintro ⟨pre, i, post, heq, hpre, hi⟩
        cases pre with
        | nil =>
          have h2 : i0 = i ∧ rest = post := by simpa using heq
          obtain ⟨rfl, rfl⟩ := h2
          rw [hg] at hi
          exact absurd hi (by simp)
        | cons p0 pre' =>
          have h2 : i0 = p0 ∧ rest = pre' ++ i :: post := by simpa using heq
          obtain ⟨rfl, -⟩ := h2
          obtain ⟨v, hv⟩ := hpre i0 (List.mem_cons_self _ _)
          rw [hg] at hv
          exact absurd hv (by simp)
    | ok ov =>
      cases ov with
      | none =>
        simp only [mapHashLoop, hg]
        exact iff_of_true (by trivial) ⟨[], i0, rest, rfl, by simp, hg⟩
      | some v =>
        simp only [mapHashLoop, hg]
        rw [ih]
        constructor
        · rintro ⟨pre, i, post, heq, hpre, hi⟩
          refine ⟨i0 :: pre, i, post, by rw [heq]; rfl, ?_, hi⟩
          intro j hj
          rcases List.mem_cons.mp hj with rfl | hj
          · exact ⟨v, hg⟩
          · exact hpre j hj
        · rintro ⟨pre, i, post, heq, hpre, hi⟩
          cases pre with
          | nil =>
            have h2 : i0 = i ∧ rest = post := by simpa using heq
            obtain ⟨rfl, rfl⟩ := h2
            rw [hg] at hi
            exact absurd hi (by simp)
          | cons p0 pre' =>
            have h2 : i0 = p0 ∧ rest = pre' ++ i :: post := by simpa using heq
            obtain ⟨rfl, hrest⟩ := h2
            exact ⟨pre', i, post, hrest,
              fun j hj => hpre j (List.mem_cons_of_mem _ hj), hi⟩

/-! ### Claims C4 and C6 -/

/-- C4: for every `MapView` whose key enumeration succeeds with keys in
ascending order and whose every enumerated key has a present value, `hash`
produces the digest of the element count followed by each `(key, value)`
pair canonically encoded, in ascending key order. -/
theorem claim_C4 {I V : Type} [LinearOrder I]
    (encLen : Nat → List Nat) (encI : I → List Nat) (encV : V → List Nat)
    (m : MapViewM I V) (idxs : List I) (val : I → V)
    (hidx : m.indices = .ok idxs)
    (hasc : idxs.Pairwise (· < ·))
    (hget : ∀ i ∈ idxs, m.get i = .ok (some (val i))) :
    MapViewM.hash encLen encI encV m =
      .ok (mapHashBytes encLen encI encV (idxs.map fun i => (i, val i))) := by
  simp only [MapViewM.hash, hidx]
  rw [mapHashLoop_ok encI encV m val idxs _ hget]
  simp [mapHashBytes, Function.comp_def]

/-- C4 witness: a two-key map with ascending enumeration. -/
theorem claim_C4_witness :
    MapViewM.hash (fun n => [n]) (fun n => [n]) (fun n => [n])
        ⟨.ok [1, 2], fun i => .ok (some (10 * i))⟩ =
      .ok (mapHashBytes (fun n => [n]) (fun n => [n]) (fun n => [n])
        ([1, 2].map fun i => (i, 10 * i))) :=
  claim_C4 (fun n => [n]) (fun n => [n]) (fun n => [n])
    ⟨.ok [1, 2], fun i => .ok (some (10 * i))⟩ [1, 2] (fun i => 10 * i)
    rfl (by decide) (by intro i hi; rfl)

/-- C6: under the precondition that every enumerated key has a present
value, the `expect` in the `MapView` `hash` impl is unreachable (`hash`
returns a digest or a propagated storage error, never the panic); and the
panic is hit exactly when a key reported by enumeration is missing on
lookup (after a prefix of present keys) — a fatal outcome distinct from an
ordinary error value. -/
theorem claim_C6 {I V : Type} (encLen : Nat → List Nat)
    (encI : I → List Nat) (encV : V → List Nat)
    (m : MapViewM I V) (idxs : List I)
    (hidx : m.indices = .ok idxs) :
    ((∀ i ∈ idxs, m.get i ≠ .ok none) →
      MapViewM.hash encLen encI encV m ≠ .panic) ∧
    (MapViewM.hash encLen encI encV m = .panic ↔
      ∃ pre i post, idxs = pre ++ i :: post ∧
        (∀ j ∈ pre, ∃ v, m.get j = .ok (some v)) ∧
        m.get i = .ok none) := by
  have hiff : MapViewM.hash encLen encI encV m = .panic ↔
      ∃ pre i post, idxs = pre ++ i :: post ∧
        (∀ j ∈ pre, ∃ v, m.get j = .ok (some v)) ∧
        m.get i = .ok none := by
    simp only [MapViewM.hash, hidx]
    exact mapHashLoop_panic_iff encI encV m idxs _
  refine ⟨?_, hiff⟩
  intro hpresent hcontra
  obtain ⟨pre, i, post, heq, -, hi⟩ := hiff.mp hcontra
  refine hpresent i ?_ hi
  rw [heq]
  exact List.mem_append_right _ (List.mem_cons_self _ _)

/-- C6 witness: key 2 is enumerated but missing on lookup, and the hash
computation indeed panics. -/
theorem claim_C6_witness :
    ((∀ i ∈ [1, 2],
        (⟨.ok [1, 2], fun i => if i = 1 then .ok (some 5) else .ok none⟩ :
          MapViewM Nat Nat).get i ≠ .ok none) →
      MapViewM.hash (fun n => [n]) (fun n => [n]) (fun n => [n])
        ⟨.ok [1, 2], fun i => if i = 1 then .ok (some 5) else .ok none⟩ ≠
        .panic) ∧
    (MapViewM.hash (fun n => [n]) (fun n => [n]) (fun n => [n])
        ⟨.ok [1, 2], fun i => if i = 1 then .ok (some 5) else .ok none⟩ =
        .panic ↔
      ∃ pre i post, [1, 2] = pre ++ i :: post ∧
        (∀ j ∈ pre, ∃ v,
          (⟨.ok [1, 2], fun i => if i = 1 then .ok (some 5) else .ok none⟩ :
            MapViewM Nat Nat).get j = .ok (some v)) ∧
        (⟨.ok [1, 2], fun i => if i = 1 then .ok (some 5) else .ok none⟩ :
          MapViewM Nat Nat).get i = .ok none) :=
  claim_C6 (fun n => [n]) (fun n => [n]) (fun n => [n])
    ⟨.ok [1, 2], fun i => if i = 1 then .ok (some 5) else .ok none⟩
    [1, 2] rfl

/-! ### Claims C5 and C8 -/

/-- The collection loop equals the flattened per-entry encoding. -/
theorem collBytes_eq_flatten {I V : Type} (encLen : Nat → List Nat)
    (encI : I → List Nat) (encV : V → List Nat)
    (encVList : List V → List Nat) (cs : List (I × TreeView I V)) :
    collBytes encLen encI encV encVList cs =
      (cs.map fun p =>
        encI p.1 ++ TreeView.hash encLen encI encV encVList p.2).flatten := by
  induction cs with
  | nil => simp [collBytes]
  | cons c rest ih =>
    obtain ⟨i, w⟩ := c
    simp [collBytes, ih]

/-- C5: for every `CollectionView` whose index enumeration returns its
indices in ascending order, `hash` produces the digest of the element
count, then for each index in ascending order the canonically encoded
index followed by the raw bytes of the child view's own finalized digest
(appended as-is, not re-encoded), where each child's digest is computed by
the same recursive `hash` — recursing through nested collections. -/
theorem claim_C5 {I V : Type} [LinearOrder I]
    (encLen : Nat → List Nat) (encI : I → List Nat) (encV : V → List Nat)
    (encVList : List V → List Nat) (cs : List (I × TreeView I V))
    (hasc : (cs.map Prod.fst).Pairwise (· < ·)) :
    TreeView.hash encLen encI encV encVList (.coll cs) =
      encLen cs.length ++
        (cs.map fun p =>
          encI p.1 ++
            TreeView.hash encLen encI encV encVList p.2).flatten := by
  rw [TreeView.hash, collBytes_eq_flatten]

/-- C5 witness: a collection with a register child and a nested collection
child, indices ascending. -/
theorem claim_C5_witness :
    TreeView.hash (fun n => [n]) (fun n => [n]) (fun n => [n])
        (fun vs => vs)
        (.coll [(1, .reg 3), (2, .coll [(1, .reg 4)])]) =
      (fun n => [n]) 2 ++
        (([(1, TreeView.reg 3), (2, .coll [(1, .reg 4)])] :
            List (Nat × TreeView Nat Nat)).map fun p =>
          [p.1] ++ TreeView.hash (fun n => [n]) (fun n => [n])
            (fun n => [n]) (fun vs => vs) p.2).flatten :=
  claim_C5 (fun n => [n]) (fun n => [n]) (fun n => [n]) (fun vs => vs)
    [(1, .reg 3), (2, .coll [(1, .reg 4)])] (by decide)

/-- Two association lists that are permutations of each other and whose key
lists are both strictly ascending are equal. -/
theorem eq_of_perm_of_keysSorted {α β : Type} [LinearOrder α]
    (l1 l2 : List (α × β)) (hp : l1.Perm l2)
    (h1 : (l1.map Prod.fst).Pairwise (· < ·))
    (h2 : (l2.map Prod.fst).Pairwise (· < ·)) : l1 = l2 := by
  haveI : IsAntisymm (α × β) (fun a b => a.1 < b.1) :=
    ⟨fun a b x y => absurd (x.trans y) (lt_irrefl _)⟩
  exact List.eq_of_perm_of_sorted hp
    (List.pairwise_map.mp h1) (List.pairwise_map.mp h2)

/-- C8: every container hash is deterministic: it is a pure function of the
container's logical content, and for the sorted containers (map,
collection) any two stores holding the same logical entries — enumerated in
ascending key order, whatever order they were built in — hash to equal
digests. -/
theorem claim_C8 {I V : Type} [LinearOrder I]
    (encLen : Nat → List Nat) (encI : I → List Nat) (encV : V → List Nat)
    (encVList : List V → List Nat) :
    (∀ t1 t2 : TreeView I V, t1 = t2 →
      TreeView.hash encLen encI encV encVList t1 =
        TreeView.hash encLen encI encV encVList t2) ∧
    (∀ ps1 ps2 : List (I × V), ps1.Perm ps2 →
      (ps1.map Prod.fst).Pairwise (· < ·) →
      (ps2.map Prod.fst).Pairwise (· < ·) →
      TreeView.hash encLen encI encV encVList (.mapv ps1) =
        TreeView.hash encLen encI encV encVList (.mapv ps2)) ∧
    (∀ cs1 cs2 : List (I × TreeView I V), cs1.Perm cs2 →
      (cs1.map Prod.fst).Pairwise (· < ·) →
      (cs2.map Prod.fst).Pairwise (· < ·) →
      TreeView.hash encLen encI encV encVList (.coll cs1) =
        TreeView.hash encLen encI encV encVList (.coll cs2)) := by
  refine ⟨fun t1 t2 h => by rw [h], ?_, ?_⟩
  · intro ps1 ps2 hp h1 h2
    rw [eq_of_perm_of_keysSorted ps1 ps2 hp h1 h2]
  · intro cs1 cs2 hp h1 h2
    rw [eq_of_perm_of_keysSorted cs1 cs2 hp h1 h2]

/-- C8 witness at concrete containers of each flavour. -/
theorem claim_C8_witness :
    TreeView.hash (fun n => [n]) (fun n => [n]) (fun n => [n])
        (fun vs => vs) (.reg 3) =
      TreeView.hash (fun n => [n]) (fun n => [n]) (fun n => [n])
        (fun vs => vs) (.reg 3) ∧
    TreeView.hash (fun n => [n]) (fun n => [n]) (fun n => [n])
        (fun vs => vs) (.mapv [(1, 10), (2, 20)]) =
      TreeView.hash (fun n => [n]) (fun n => [n]) (fun n => [n])
        (fun vs => vs) (.mapv [(1, 10), (2, 20)]) ∧
    TreeView.hash (fun n => [n]) (fun n => [n]) (fun n => [n])
        (fun vs => vs) (.coll [(1, .reg 3)]) =
      TreeView.hash (fun n => [n]) (fun n => [n]) (fun n => [n])
        (fun vs => vs) (.coll [(1, .reg 3)]) :=
  ⟨(claim_C8 (fun n => [n]) (fun n => [n]) (fun n => [n])
      (fun vs => vs)).1 (.reg 3) (.reg 3) rfl,
    (claim_C8 (fun n => [n]) (fun n => [n]) (fun n => [n])
      (fun vs => vs)).2.1 [(1, 10), (2, 20)] [(1, 10), (2, 20)]
      (List.Perm.refl _) (by decide) (by decide),
    (claim_C8 (fun n => [n]) (fun n => [n]) (fun n => [n])
      (fun vs => vs)).2.2 [(1, .reg 3)] [(1, .reg 3)]
      (List.Perm.refl _) (by decide) (by decide)⟩

end LineraProof
